import Mathlib

/-!
Verification of the DBCE chess engine core: the packed board
(`src/baserules/rawboard.rs`), piece colour handling
(`src/baserules/piece_color.rs`) and the continuation tree
(`src/engine/continuation.rs`).

Machine integers (`u32`) are embedded as `Nat` with explicit masking where
the Rust code relies on wraparound/complement; `f32` scores are embedded as
exact rationals `ℚ`.  Types provided by repository files that are not part
of the analysed sources (`piece_state.rs`, `board_rep.rs`, `board.rs`) are
modelled from the specification and marked as such in their doc comments.
-/

namespace Dbce

/-- Piece kinds, from `piece_kind.rs` (imported by `rawboard.rs`). -/
inductive PieceKind where
  | Pawn
  | Knight
  | Bishop
  | Rook
  | Queen
  | King
deriving DecidableEq, Repr, Fintype

/-- Piece colours, from `piece_color.rs`. -/
inductive PieceColor where
  | Black
  | White
deriving DecidableEq, Repr, Fintype

open PieceKind PieceColor

/-- `PieceColor::from_u8` from `piece_color.rs`: the colour is carried by
bit 3 of the nibble (`colour & 8 > 0` means white). -/
def PieceColor.from_u8 (colour : Nat) : PieceColor :=
  if colour &&& 8 > 0 then White else Black

/-- `PieceColor::add_to_u8` from `piece_color.rs`: sets bit 3 for white. -/
def PieceColor.add_to_u8 (self : PieceColor) (prepped : Nat) : Nat :=
  prepped |||
    match self with
    | White => 8
    | Black => 0

/-- A piece state: kind and colour, as stored in one 4-bit board slot.
The struct itself lives in `piece_state.rs` (not among the analysed
sources); its two fields are fixed by the spec's data model. -/
structure PieceState where
  kind : PieceKind
  color : PieceColor
deriving DecidableEq, Repr, Fintype

/-- Modelled from the spec: `piece_state.rs` is not among the analysed
sources.  The spec requires each kind to occupy a distinct nonzero value
range inside the low bits of the nibble (empty square = all-zero nibble),
so kinds are coded `1..6`. -/
def PieceKind.code : PieceKind → Nat
  | Pawn => 1
  | Knight => 2
  | Bishop => 3
  | Rook => 4
  | Queen => 5
  | King => 6

/-- Modelled from the spec: inverse of `PieceKind.code`; every other low
3-bit pattern (0 and 7) decodes to "no piece", keeping decoding total. -/
def PieceKind.fromCode : Nat → Option PieceKind
  | 1 => some Pawn
  | 2 => some Knight
  | 3 => some Bishop
  | 4 => some Rook
  | 5 => some Queen
  | 6 => some King
  | _ => none

/-- Modelled from the spec: `PieceState::bits` of `piece_state.rs` encodes
an optional piece into one nibble: empty = 0, otherwise kind code plus the
colour bit added by `PieceColor::add_to_u8`. -/
def PieceState.bits : Option PieceState → Nat
  | none => 0
  | some p => p.color.add_to_u8 p.kind.code

/-- Helper for the nibble decoder: scans the (at most 8) nibbles of a `u32`
value and returns the lowest nonzero nibble, or 0 when the value is 0. -/
def lowNibbleGo : Nat → Nat → Nat
  | 0, _ => 0
  | fuel + 1, bits =>
    if bits % 16 ≠ 0 then bits % 16 else lowNibbleGo fuel (bits / 16)

/-- Lowest nonzero nibble of a value below `2^32` (0 for 0). -/
def lowNibble (bits : Nat) : Nat :=
  lowNibbleGo 8 bits

/-- Modelled from the spec: `PieceState::from_u8` of `piece_state.rs`.  It
is called both with an already right-shifted nibble (the `Index`
implementation) and with a nibble masked in place inside the row word (the
iterator), and by the spec both must decode to the same optional piece, so
the decoder first normalises its argument to the lowest nonzero nibble.
Decoding is total: colour comes from bit 3 (`PieceColor::from_u8`), the
kind from the low three bits via `PieceKind.fromCode`, and unused patterns
yield an empty square. -/
def PieceState.from_u8 (bits : Nat) : Option PieceState :=
  let n := lowNibble bits
  match PieceKind.fromCode (n &&& 7) with
  | none => none
  | some k => some ⟨k, PieceColor.from_u8 n⟩

/-- Modelled from the spec: `BoardPos` of `board_rep.rs` (not among the
analysed sources), a zero-based row/column square address on the 8×8
board. -/
structure BoardPos where
  row : Fin 8
  col : Fin 8
deriving DecidableEq, Repr, Fintype

/-- `RawBoard` from `rawboard.rs`: eight bit-packed row words.  The Rust
field type is `[u32; 8]`; rows are embedded as `Nat` (all operations keep
them below `2^32`). -/
structure RawBoard where
  rows : Fin 8 → Nat

/-- `RawBoard::empty`. -/
def RawBoard.empty : RawBoard :=
  ⟨fun _ => 0⟩

/-- `RawBoard::set_loc`: clears the addressed nibble with the complement
mask `!(0b1111 << shift)` (complement in `u32` is XOR with `2^32 - 1`) and
ORs in the encoded piece. -/
def RawBoard.set_loc (self : RawBoard) (p : BoardPos) (piece : Option PieceState) :
    RawBoard :=
  let shift_amount := p.col.val <<< 2
  let piece_mask := (2 ^ 32 - 1) ^^^ (15 <<< shift_amount)
  let a_row := self.rows p.row &&& piece_mask
  let a_bit_piece := PieceState.bits piece <<< shift_amount
  ⟨Function.update self.rows p.row (a_row ||| a_bit_piece)⟩

/-- The `Index<BoardPos>` implementation for `RawBoard`: shifts the row
word right by `col << 2` and decodes the low nibble. -/
def RawBoard.get (self : RawBoard) (p : BoardPos) : Option PieceState :=
  PieceState.from_u8 (self.rows p.row >>> (p.col.val <<< 2) &&& 15)

/-- `ALL_POSSIBLE_MASKS` from `rawboard.rs`: `generate_masks` fills slot
`index` with `0xF << (4 * index)` (asserted for slots 0..3 and 7 by the
repository's own `test_mask_generator`). -/
def ALL_POSSIBLE_MASKS (index : Fin 8) : Nat :=
  15 <<< (4 * index.val)

/-- `RawBoardIterator` from `rawboard.rs`: a board reference plus the
current square index. -/
structure RawBoardIterator where
  raw_board : RawBoard
  curr_idx : Nat

/-- The square value produced for index `i`:
`ALL_POSSIBLE_MASKS[i & 0b111] & rows[i >> 3]` decoded by
`PieceState::from_u8`.  The source reads the row with `get_unchecked`,
which is defined only for in-range indices (every reachable iterator state
has `i < 64` here); the `% 8` totalises the embedding. -/
def RawBoard.itemAt (b : RawBoard) (i : Nat) : Option PieceState :=
  PieceState.from_u8
    (ALL_POSSIBLE_MASKS ⟨i &&& 7, Nat.lt_succ_of_le (@Nat.and_le_right i 7)⟩ &&&
      b.rows ⟨i >>> 3 % 8, Nat.mod_lt _ (by norm_num)⟩)

/-- `Iterator::next` for `RawBoardIterator`: `None` once the index reaches
64, otherwise the decoded square and the advanced iterator. -/
def RawBoardIterator.next (it : RawBoardIterator) :
    Option (Option PieceState × RawBoardIterator) :=
  if it.curr_idx = 64 then none
  else some (it.raw_board.itemAt it.curr_idx, ⟨it.raw_board, it.curr_idx + 1⟩)

/-- `IntoIterator for &RawBoard`: starts at index 0. -/
def RawBoard.intoIter (b : RawBoard) : RawBoardIterator :=
  ⟨b, 0⟩

/-- Runs the iterator, collecting the produced items.  The fuel only
bounds the recursion; with fuel 65 the collection below always ends at the
iterator's own `None`. -/
def RawBoardIterator.takeItems : Nat → RawBoardIterator → List (Option PieceState)
  | 0, _ => []
  | fuel + 1, it =>
    match it.next with
    | none => []
    | some (x, it') => x :: takeItems fuel it'

/-- The full sequence produced by iterating a board front to back. -/
def RawBoard.items (b : RawBoard) : List (Option PieceState) :=
  b.intoIter.takeItems 65

/-- Modelled from the spec: kinds of the back rank, queen on column 3
(d-file), used to build the standard starting position
(`PSBoard::default` and FEN parsing are outside the analysed sources). -/
def backRankKind (c : Fin 8) : PieceKind :=
  match c.val with
  | 0 => Rook
  | 1 => Knight
  | 2 => Bishop
  | 3 => Queen
  | 4 => King
  | 5 => Bishop
  | 6 => Knight
  | _ => Rook

/-- Packs one row of optional pieces into a row word, nibble `c` at bit
offset `4 * c`. -/
def rowWord (f : Fin 8 → Option PieceState) : Nat :=
  ((List.finRange 8).map (fun c => PieceState.bits (f c) * 16 ^ c.val)).sum

/-- Modelled from the spec: the standard chess starting position, row 0 =
White's back rank (a1 at row 0 col 0), row 1 = White pawns, row 6 = Black
pawns, row 7 = Black's back rank. -/
def startBoard : RawBoard :=
  ⟨fun r =>
    match r.val with
    | 0 => rowWord (fun c => some ⟨backRankKind c, White⟩)
    | 1 => rowWord (fun _ => some ⟨Pawn, White⟩)
    | 6 => rowWord (fun _ => some ⟨Pawn, Black⟩)
    | 7 => rowWord (fun c => some ⟨backRankKind c, Black⟩)
    | _ => 0⟩

/-- The expected contents of the starting position, square by square. -/
def startPlacement (r c : Fin 8) : Option PieceState :=
  match r.val with
  | 0 => some ⟨backRankKind c, White⟩
  | 1 => some ⟨Pawn, White⟩
  | 6 => some ⟨Pawn, Black⟩
  | 7 => some ⟨backRankKind c, Black⟩
  | _ => none

/-! ### The evaluator (`MATE`, `is_mate`, `RawBoard::score`) -/

/-- `MATE` from `rawboard.rs` (the `f32` constant `1000.0` as an exact
rational). -/
def MATE : ℚ := 1000

/-- `is_mate` from `rawboard.rs`: `(score.abs() - MATE).abs() < 50.0`. -/
def is_mate (score : ℚ) : Bool :=
  decide (|(|score| - MATE)| < 50)

/-- The per-piece triple of `score`'s `match`: signed material value plus
the white-king-seen and black-king-seen flags. -/
def pieceTriple (p : PieceState) : ℚ × Bool × Bool :=
  match p.kind, p.color with
  | Pawn, White => (1, false, false)
  | Pawn, Black => (-1, false, false)
  | Knight, White => (3, false, false)
  | Knight, Black => (-3, false, false)
  | Bishop, White => (3.1, false, false)
  | Bishop, Black => (-3.1, false, false)
  | Rook, White => (5, false, false)
  | Rook, Black => (-5, false, false)
  | Queen, White => (9, false, false)
  | Queen, Black => (-9, false, false)
  | King, White => (0, true, false)
  | King, Black => (0, false, true)

/-- The fold of `RawBoard::score`: accumulates the material sum and ORs
the king-sighting flags, starting from `(0, false, false)`. -/
def scoreFold (l : List (ℚ × Bool × Bool)) : ℚ × Bool × Bool :=
  l.foldl (fun acc t => (acc.1 + t.1, acc.2.1 || t.2.1, acc.2.2 || t.2.2))
    (0, false, false)

/-- `RawBoard::score`: iterate the board, drop empty squares, sum signed
material while tracking king sightings, then apply the result policy. -/
def RawBoard.score (self : RawBoard) : ℚ :=
  let r := scoreFold ((self.items.filterMap id).map pieceTriple)
  if r.2.1 then
    if r.2.2 then r.1 else MATE
  else
    -MATE

/-! ### Specification-side definitions for the evaluator claims -/

/-- Material value of a piece kind as listed in the spec: pawn 1,
knight 3, bishop 3.1, rook 5, queen 9, king 0. -/
def kindValue : PieceKind → ℚ
  | Pawn => 1
  | Knight => 3
  | Bishop => 3.1
  | Rook => 5
  | Queen => 9
  | King => 0

/-- Signed value of a square: white positive, black negative, empty 0. -/
def pieceValue : Option PieceState → ℚ
  | none => 0
  | some p =>
    match p.color with
    | White => kindValue p.kind
    | Black => -kindValue p.kind

/-- Sum of the signed material values over all 64 squares. -/
def materialSum (b : RawBoard) : ℚ :=
  ∑ r : Fin 8, ∑ c : Fin 8, pieceValue (b.get ⟨r, c⟩)

/-- A king of the given colour occurs somewhere on the board. -/
def kingOn (c : PieceColor) (b : RawBoard) : Prop :=
  ∃ p : BoardPos, b.get p = some ⟨King, c⟩

instance (c : PieceColor) (b : RawBoard) : Decidable (kingOn c b) :=
  inferInstanceAs (Decidable (∃ p : BoardPos, b.get p = some ⟨King, c⟩))

/-- Indexed access at row `i / 8`, column `i % 8`, totalised with `% 8`
(the identity for `i < 64`). -/
def RawBoard.getRC (b : RawBoard) (i : Nat) : Option PieceState :=
  b.get ⟨⟨i / 8 % 8, Nat.mod_lt _ (by norm_num)⟩, ⟨i % 8, Nat.mod_lt _ (by norm_num)⟩⟩

/-! ### The continuation tree (`engine/continuation.rs`) -/

/-- Modelled from the spec: `PossibleMove` of `board_rep.rs` (not among
the analysed sources): a fully-formed move value, compared by value. -/
structure PossibleMove where
  fromPos : BoardPos
  toPos : BoardPos
deriving DecidableEq, Repr

/-- Modelled from the spec: `PSBoard` of `board.rs` (not among the
analysed sources): a full position snapshot; only the packed board part is
relevant to the continuation claims. -/
structure PSBoard where
  raw : RawBoard

/-- `BoardContinuation` from `continuation.rs`: a node owns its (shared)
position, an adjusted score (`f32::NAN` when unset, modelled as `none`)
and an arena of `(move, subtree)` entries.  The generational arena is
embedded as the list of its live entries in iteration (slot) order:
insertion appends, removal deletes the entry, iteration is list order. -/
inductive BoardContinuation where
  | mk : PSBoard → Option ℚ → List (PossibleMove × BoardContinuation) → BoardContinuation

namespace BoardContinuation

def board : BoardContinuation → PSBoard
  | mk b _ _ => b

def adjusted_score : BoardContinuation → Option ℚ
  | mk _ s _ => s

def continuation : BoardContinuation → List (PossibleMove × BoardContinuation)
  | mk _ _ l => l

/-- Same node with a new entry store (used for in-place arena updates). -/
def withEntries : BoardContinuation → List (PossibleMove × BoardContinuation) →
    BoardContinuation
  | mk b s _, l => mk b s l

/-- `BoardContinuation::new`: fresh node, unset score, empty store. -/
def new (b : PSBoard) : BoardContinuation :=
  mk b none []

/-- `keys()`: the moves of the stored entries. -/
def keys (self : BoardContinuation) : List PossibleMove :=
  self.continuation.map Prod.fst

/-- `values()`: the subtrees of the stored entries. -/
def values (self : BoardContinuation) : List BoardContinuation :=
  self.continuation.map Prod.snd

/-- `continuation_exists`: linear scan of the keys for the move. -/
def continuation_exists (self : BoardContinuation) (the_move : PossibleMove) : Bool :=
  self.keys.any fun possible_move => decide (possible_move = the_move)

/-- `insert_psboard`: arena insert of a fresh node wrapping the board (no
duplicate check). -/
def insert_psboard (self : BoardContinuation) (the_move : PossibleMove) (b : PSBoard) :
    BoardContinuation :=
  self.withEntries (self.continuation ++ [(the_move, new b)])

/-- First entry with the given move, if any (`find_continuation`'s scan). -/
def findFirst (m : PossibleMove) :
    List (PossibleMove × BoardContinuation) → Option BoardContinuation
  | [] => none
  | e :: rest => if e.1 = m then some e.2 else findFirst m rest

/-- Removes the first entry with the given move, returning it and the
remaining entries (`Arena::remove` at the found index). -/
def removeFirst (m : PossibleMove) :
    List (PossibleMove × BoardContinuation) →
      Option BoardContinuation × List (PossibleMove × BoardContinuation)
  | [] => (none, [])
  | e :: rest =>
    if e.1 = m then (some e.2, rest)
    else
      let r := removeFirst m rest
      (r.1, e :: r.2)

/-- Replaces the subtree of the first entry with the given move
(`find_continuation_mut` followed by an in-place update). -/
def setFirst (m : PossibleMove) (v : BoardContinuation) :
    List (PossibleMove × BoardContinuation) → List (PossibleMove × BoardContinuation)
  | [] => []
  | e :: rest => if e.1 = m then (e.1, v) :: rest else e :: setFirst m v rest

/-- `find_continuation_remove`: scans for the move in iteration order; on
a hit removes that entry from the arena and hands the subtree over. -/
def find_continuation_remove (self : BoardContinuation) (the_move : PossibleMove) :
    Option BoardContinuation × BoardContinuation :=
  let r := removeFirst the_move self.continuation
  (r.1, self.withEntries r.2)

/-- `find_continuation`: non-removing linear scan. -/
def find_continuation (self : BoardContinuation) (the_move : PossibleMove) :
    Option BoardContinuation :=
  findFirst the_move self.continuation

/-- `make_cached_move`: take the cached continuation if present, else
build a fresh node from the recomputed position.  `make_move_noncached`
lives in `board.rs`, outside the analysed sources, so the recomputation is
supplied as the parameter `make_move`. -/
def make_cached_move (make_move : PSBoard → PossibleMove → PSBoard)
    (self : BoardContinuation) (the_move : PossibleMove) : BoardContinuation :=
  match (find_continuation_remove self the_move).1 with
  | some cont => cont
  | none => new (make_move self.board the_move)

mutual

/-- `merge`: drains every entry out of `to_merge` (the arena's `drain`
empties the source store) and folds them into `self`: an entry whose move
is already present is merged recursively into the first such entry,
otherwise it is adopted by insertion. -/
def merge (self to_merge : BoardContinuation) : BoardContinuation :=
  mergeEntries self to_merge.continuation
termination_by sizeOf to_merge
decreasing_by cases to_merge with | mk b s l => simp [continuation]

/-- Processes the drained entries of the source in iteration order. -/
def mergeEntries (self : BoardContinuation) :
    List (PossibleMove × BoardContinuation) → BoardContinuation
  | [] => self
  | (amove, sub) :: rest => mergeEntries (mergeStep self amove sub) rest
termination_by l => sizeOf l
decreasing_by
  all_goals simp only [List.cons.sizeOf_spec, Prod.mk.sizeOf_spec]
  all_goals omega

/-- One drained entry: recursive merge into the first entry with the same
move, or wholesale adoption. -/
def mergeStep (self : BoardContinuation) (amove : PossibleMove)
    (sub : BoardContinuation) : BoardContinuation :=
  match findFirst amove self.continuation with
  | some found => self.withEntries (setFirst amove (merge found sub) self.continuation)
  | none => self.withEntries (self.continuation ++ [(amove, sub)])
termination_by sizeOf sub + 1
decreasing_by omega

end

mutual

/-- `total_continuation_boards`: direct entry count plus the recursive
count over every subtree. -/
def total_continuation_boards (self : BoardContinuation) : Nat :=
  self.continuation.length + totalEntries self.continuation
termination_by sizeOf self
decreasing_by cases self with | mk b s l => simp [continuation]

/-- Sum of `total_continuation_boards` over a list of entries. -/
def totalEntries : List (PossibleMove × BoardContinuation) → Nat
  | [] => 0
  | (_, sub) :: rest => total_continuation_boards sub + totalEntries rest
termination_by l => sizeOf l
decreasing_by
  all_goals simp only [List.cons.sizeOf_spec, Prod.mk.sizeOf_spec]
  all_goals omega

end

/-- `similar_quality_moves`: the direct children whose score is within the
fixed epsilon `0.05` of the reference node's score (`max - min < 0.05`). -/
def similar_quality_moves (self best_board : BoardContinuation)
    (score_query : BoardContinuation → ℚ) : List BoardContinuation :=
  let bb_score := score_query best_board
  self.values.filter fun other =>
    decide (max (score_query other) bb_score - min (score_query other) bb_score < 0.05)

/-- `select_similar_board`: draws `k` from the RNG (`gen_range(0..choices)`,
which panics when `choices = 0`) and takes the `k`-th qualifying child; no
draw produces a value when the qualifying set is empty. -/
def select_similar_board (self best_board : BoardContinuation)
    (score_query : BoardContinuation → ℚ) (k : Nat) : Option BoardContinuation :=
  (similar_quality_moves self best_board score_query)[k]?

/-- A `(move, subtree)` path is reachable in a tree: the empty path
always, and `m :: ms` when some direct entry carries move `m` and its
subtree reaches `ms`. -/
def hasPath : List PossibleMove → BoardContinuation → Bool
  | [], _ => true
  | m :: ms, self => self.continuation.any fun e => decide (e.1 = m) && hasPath ms e.2

mutual

/-- No two sibling entries share a move, at any depth. -/
def nodupDeep (self : BoardContinuation) : Bool :=
  decide self.keys.Nodup && nodupEntries self.continuation
termination_by sizeOf self
decreasing_by cases self with | mk b s l => simp [continuation]

/-- `nodupDeep` over every subtree of an entry list. -/
def nodupEntries : List (PossibleMove × BoardContinuation) → Bool
  | [] => true
  | (_, sub) :: rest => nodupDeep sub && nodupEntries rest
termination_by l => sizeOf l
decreasing_by
  all_goals simp only [List.cons.sizeOf_spec, Prod.mk.sizeOf_spec]
  all_goals omega

end

mutual

/-- All nonempty reachable paths of a tree, with multiplicity. -/
def pathsOf (self : BoardContinuation) : List (List PossibleMove) :=
  pathsEntries self.continuation
termination_by sizeOf self
decreasing_by cases self with | mk b s l => simp [continuation]

/-- All nonempty paths through an entry list. -/
def pathsEntries : List (PossibleMove × BoardContinuation) → List (List PossibleMove)
  | [] => []
  | (m, sub) :: rest => [m] :: (pathsOf sub).map (fun p => m :: p) ++ pathsEntries rest
termination_by l => sizeOf l
decreasing_by
  all_goals simp only [List.cons.sizeOf_spec, Prod.mk.sizeOf_spec]
  all_goals omega

end

/-! ### Concrete witness material -/

/-- A concrete move for witnesses. -/
def wMove : PossibleMove :=
  ⟨⟨0, 0⟩, ⟨1, 1⟩⟩

/-- A concrete position for witnesses. -/
def wBoard : PSBoard :=
  ⟨RawBoard.empty⟩

/-- A leaf continuation node for witnesses. -/
def wLeaf : BoardContinuation :=
  new wBoard

/-- A one-entry continuation node for witnesses. -/
def wNode : BoardContinuation :=
  mk wBoard none [(wMove, wLeaf)]

/-- `Arena::drain` on a node: yields all entries and leaves the store
empty. -/
def drain (self : BoardContinuation) :
    List (PossibleMove × BoardContinuation) × BoardContinuation :=
  (self.continuation, self.withEntries [])

/-- A source tree holding the same move twice, for the C4 counterexample. -/
def cT2 : BoardContinuation :=
  mk wBoard none [(wMove, wLeaf), (wMove, wLeaf)]

end BoardContinuation

/-! ### Theorems -/

/-! ### Nibble arithmetic lemmas -/

theorem lowNibbleGo_zero (fuel : Nat) : lowNibbleGo fuel 0 = 0 := by
  cases fuel with
  | zero => rfl
  | succ n => simp [lowNibbleGo, lowNibbleGo_zero n]

/-- The nibble normaliser is the identity on already-extracted nibbles. -/
theorem lowNibble_of_lt (n : Nat) (h : n < 16) : lowNibble n = n := by
  rcases Nat.eq_zero_or_pos n with h0 | h0
  · subst h0; exact lowNibbleGo_zero 8
  · have h0' : n ≠ 0 := by omega
    simp [lowNibble, lowNibbleGo, Nat.mod_eq_of_lt h, h0']

theorem lowNibbleGo_mul_pow (fuel c n : Nat) (hn : n < 16) (hc : c < fuel) :
    lowNibbleGo fuel (n * 16 ^ c) = n := by
  induction c generalizing fuel with
  | zero =>
    rcases fuel with _ | fuel
    · omega
    rcases Nat.eq_zero_or_pos n with h0 | h0
    · subst h0; simpa using lowNibbleGo_zero (fuel + 1)
    · have h0' : n ≠ 0 := by omega
      simp [lowNibbleGo, Nat.mod_eq_of_lt hn, h0']
  | succ c ih =>
    rcases fuel with _ | fuel
    · omega
    have hmod : n * 16 ^ (c + 1) % 16 = 0 := by
      have : (16 : Nat) ∣ n * 16 ^ (c + 1) := ⟨n * 16 ^ c, by ring⟩
      omega
    have hdiv : n * 16 ^ (c + 1) / 16 = n * 16 ^ c := by
      rw [pow_succ, ← Nat.mul_assoc, Nat.mul_div_cancel]
      omega
    simp [lowNibbleGo, hmod, hdiv, ih fuel (by omega)]

/-- Extracting the lowest nonzero nibble undoes an in-place nibble shift. -/
theorem lowNibble_shifted (n c : Nat) (hn : n < 16) (hc : c < 8) :
    lowNibble (n <<< (4 * c)) = n := by
  have : n <<< (4 * c) = n * 16 ^ c := by
    rw [Nat.shiftLeft_eq, pow_mul]
    norm_num
  rw [lowNibble, this, lowNibbleGo_mul_pow 8 c n hn hc]

theorem testBit_15 (j : Nat) : Nat.testBit 15 j = decide (j < 4) := by
  rw [show (15 : Nat) = 2 ^ 4 - 1 by norm_num, Nat.testBit_two_pow_sub_one]

theorem testBit_nibble_high (b j : Nat) (hb : b < 16) (hj : 4 ≤ j) :
    Nat.testBit b j = false := by
  apply Nat.testBit_lt_two_pow
  calc b < 16 := hb
    _ = 2 ^ 4 := by norm_num
    _ ≤ 2 ^ j := Nat.pow_le_pow_right (by norm_num) hj

/-- A nibble masked in place inside a row word equals the right-shifted,
low-masked nibble moved back into place. -/
theorem and_mask_eq_shifted (r c : Nat) (hc : c < 8) :
    r &&& (15 <<< (4 * c)) = ((r >>> (4 * c)) &&& 15) <<< (4 * c) := by
  apply Nat.eq_of_testBit_eq
  intro i
  simp only [Nat.testBit_and, Nat.testBit_shiftLeft, Nat.testBit_shiftRight]
  by_cases h : 4 * c ≤ i
  · simp [h, testBit_15, Nat.add_sub_cancel' h]
  · simp [h]

/-- Reading back the nibble just written by `set_loc`'s mask-and-or. -/
theorem nibble_write_read (r b c : Nat) (hb : b < 16) (hc : c < 8) :
    ((r &&& ((2 ^ 32 - 1) ^^^ (15 <<< (4 * c))) ||| b <<< (4 * c)) >>> (4 * c)) &&& 15
      = b := by
  apply Nat.eq_of_testBit_eq
  intro i
  simp only [Nat.testBit_and, Nat.testBit_or, Nat.testBit_xor, Nat.testBit_shiftLeft,
    Nat.testBit_shiftRight, Nat.testBit_two_pow_sub_one]
  by_cases h4 : i < 4
  · have h32 : 4 * c + i < 32 := by omega
    have hge : 4 * c ≤ 4 * c + i := by omega
    simp [testBit_15, h32, hge, Nat.add_sub_cancel' hge, h4]
  · have hbi : Nat.testBit b i = false := testBit_nibble_high b i hb (by omega)
    simp [testBit_15, h4, hbi]

/-- Writing one nibble leaves every other nibble of the same row intact. -/
theorem nibble_write_frame (r b c c' : Nat) (hb : b < 16) (hc : c < 8) (hc' : c' < 8)
    (hne : c' ≠ c) :
    ((r &&& ((2 ^ 32 - 1) ^^^ (15 <<< (4 * c))) ||| b <<< (4 * c)) >>> (4 * c')) &&& 15
      = (r >>> (4 * c')) &&& 15 := by
  apply Nat.eq_of_testBit_eq
  intro i
  simp only [Nat.testBit_and, Nat.testBit_or, Nat.testBit_xor, Nat.testBit_shiftLeft,
    Nat.testBit_shiftRight, Nat.testBit_two_pow_sub_one]
  by_cases h4 : i < 4
  · have h32 : 4 * c' + i < 32 := by omega
    have hout : ¬ (4 * c' + i - 4 * c < 4) ∨ ¬ (4 * c ≤ 4 * c' + i) := by omega
    have hbit : Nat.testBit b (4 * c' + i - 4 * c) = false ∨ ¬ (4 * c ≤ 4 * c' + i) := by
      rcases hout with h | h
      · exact Or.inl (testBit_nibble_high b _ hb (by omega))
      · exact Or.inr h
    rcases hbit with h | h <;> simp [testBit_15, h32, h4, h] <;> omega
  · simp [testBit_15, h4]

/-! ### Claims C2 and C9: storage round-trip and frame -/

/-- Encoding then decoding an optional piece is the identity (spec §8
round-trip at nibble level). -/
theorem from_u8_bits (v : Option PieceState) :
    PieceState.from_u8 (PieceState.bits v) = v := by
  revert v; decide

theorem bits_lt_16 (v : Option PieceState) : PieceState.bits v < 16 := by
  revert v; decide

/-- C2: for every board, every square and every optional piece value
(empty or any of the twelve kind/colour pairs), reading the square right
after writing the value returns that value. -/
theorem C2_set_get_roundtrip (b : RawBoard) (p : BoardPos) (v : Option PieceState) :
    (b.set_loc p v).get p = v := by
  unfold RawBoard.set_loc RawBoard.get
  simp only [Function.update_same]
  have hs : p.col.val <<< 2 = 4 * p.col.val := by
    rw [Nat.shiftLeft_eq]
    ring
  rw [hs, nibble_write_read _ _ _ (bits_lt_16 v) p.col.isLt, from_u8_bits]

/-- C9: writing a square changes no other square: after `set_loc` at `p`,
every square `q ≠ p` reads the same value as before. -/
theorem C9_set_loc_frame (b : RawBoard) (p q : BoardPos) (v : Option PieceState)
    (hne : q ≠ p) : (b.set_loc p v).get q = b.get q := by
  obtain ⟨pr, pc⟩ := p
  obtain ⟨qr, qc⟩ := q
  unfold RawBoard.set_loc RawBoard.get
  simp only
  by_cases hrow : qr = pr
  · subst hrow
    have hcol : qc.val ≠ pc.val := by
      intro h
      exact hne (by rw [Fin.val_injective h])
    rw [Function.update_same]
    have hs : ∀ c : Fin 8, c.val <<< 2 = 4 * c.val := by
      intro c
      rw [Nat.shiftLeft_eq]
      ring
    rw [hs pc, hs qc, nibble_write_frame _ _ _ _ (bits_lt_16 v) pc.isLt qc.isLt hcol]
  · rw [Function.update_noteq hrow]

/-! ### Claim C1: iteration is row-major indexed access -/

theorem takeItems_spec (b : RawBoard) :
    ∀ k, k ≤ 64 →
      RawBoardIterator.takeItems (k + 1) ⟨b, 64 - k⟩ =
        (List.range k).map (fun j => b.itemAt (64 - k + j)) := by
  intro k
  induction k with
  | zero => intro _; simp [RawBoardIterator.takeItems, RawBoardIterator.next]
  | succ k ih =>
    intro hk
    have hne : 64 - (k + 1) ≠ 64 := by omega
    have hstep : 64 - (k + 1) + 1 = 64 - k := by omega
    rw [RawBoardIterator.takeItems, RawBoardIterator.next]
    simp only [hne, if_false, hstep, ih (by omega), List.range_succ_eq_map,
      List.map_cons, List.map_map, Function.comp, Nat.succ_eq_add_one]
    have h1 : 64 - (k + 1) + 0 = 64 - (k + 1) := by omega
    simp only [h1]
    congr 1
    apply List.map_congr_left
    intro j _
    show b.itemAt (64 - k + j) = b.itemAt (64 - (k + 1) + (j + 1))
    congr 1
    omega

/-- Iterating a board lists `itemAt 0 .. itemAt 63` in order. -/
theorem items_eq_map_range (b : RawBoard) :
    b.items = (List.range 64).map b.itemAt := by
  have h := takeItems_spec b 64 (by norm_num)
  simpa [RawBoard.items, RawBoard.intoIter] using h

theorem from_u8_congr {x y : Nat} (h : lowNibble x = lowNibble y) :
    PieceState.from_u8 x = PieceState.from_u8 y := by
  unfold PieceState.from_u8
  rw [h]

/-- The iterator's in-place masked decode agrees with indexed access. -/
theorem itemAt_eq_get (b : RawBoard) (i : Nat) (h : i < 64) :
    b.itemAt i = b.get ⟨⟨i / 8, by omega⟩, ⟨i % 8, Nat.mod_lt _ (by norm_num)⟩⟩ := by
  have key : ∀ j, j < 64 → (j &&& 7 = j % 8 ∧ j >>> 3 = j / 8) := by decide
  obtain ⟨h7, h3⟩ := key i h
  unfold RawBoard.itemAt RawBoard.get ALL_POSSIBLE_MASKS
  simp only [h7, h3]
  have hrow : (⟨i / 8 % 8, Nat.mod_lt _ (by norm_num)⟩ : Fin 8)
      = ⟨i / 8, by omega⟩ := by
    apply Fin.ext
    simp only
    omega
  rw [hrow]
  set r := b.rows ⟨i / 8, by omega⟩ with hr
  have hsh : (i % 8) <<< 2 = 4 * (i % 8) := by
    rw [Nat.shiftLeft_eq]
    ring
  rw [hsh, Nat.and_comm, and_mask_eq_shifted r (i % 8) (Nat.mod_lt _ (by norm_num))]
  apply from_u8_congr
  have hlt : r >>> (4 * (i % 8)) &&& 15 < 16 :=
    Nat.lt_succ_of_le (@Nat.and_le_right (r >>> (4 * (i % 8))) 15)
  rw [lowNibble_shifted _ _ hlt (Nat.mod_lt _ (by norm_num)), lowNibble_of_lt _ hlt]

/-- C1: iterating any board yields exactly 64 items, the `i`-th item being
indexed access at row `i / 8`, column `i % 8`; in particular for the
starting position item 0 is the square at row 0 col 0 and item 59 the
square at row 7 col 3. -/
theorem C1_iterator_row_major :
    (∀ b : RawBoard, b.items.length = 64 ∧
      ∀ i : Nat, (h : i < 64) →
        b.items[i]? =
          some (b.get ⟨⟨i / 8, by omega⟩, ⟨i % 8, Nat.mod_lt _ (by norm_num)⟩⟩)) ∧
    startBoard.items[0]? = some (startBoard.get ⟨⟨0, by norm_num⟩, ⟨0, by norm_num⟩⟩) ∧
    startBoard.items[59]? = some (startBoard.get ⟨⟨7, by norm_num⟩, ⟨3, by norm_num⟩⟩) := by
  have main : ∀ b : RawBoard, b.items.length = 64 ∧
      ∀ i : Nat, (h : i < 64) →
        b.items[i]? =
          some (b.get ⟨⟨i / 8, by omega⟩, ⟨i % 8, Nat.mod_lt _ (by norm_num)⟩⟩) := by
    intro b
    constructor
    · simp [items_eq_map_range]
    · intro i hi
      rw [items_eq_map_range, List.getElem?_map, List.getElem?_range hi]
      simp only [Option.map_some']
      rw [itemAt_eq_get b i hi]
  refine ⟨main, ?_, ?_⟩
  · exact (main startBoard).2 0 (by norm_num)
  · exact (main startBoard).2 59 (by norm_num)

/-! ### Bridging the iterator fold to the square-indexed sum -/

theorem items_eq_map_getRC (b : RawBoard) :
    b.items = (List.range 64).map b.getRC := by
  rw [items_eq_map_range]
  apply List.map_congr_left
  intro i hi
  have hi' : i < 64 := List.mem_range.mp hi
  rw [itemAt_eq_get b i hi']
  unfold RawBoard.getRC
  have h8 : (⟨i / 8, by omega⟩ : Fin 8) = ⟨i / 8 % 8, Nat.mod_lt _ (by norm_num)⟩ := by
    apply Fin.ext
    simp only
    omega
  rw [h8]

theorem scoreFold_step (l : List (ℚ × Bool × Bool)) (a : ℚ × Bool × Bool) :
    l.foldl (fun acc t => (acc.1 + t.1, acc.2.1 || t.2.1, acc.2.2 || t.2.2)) a =
      (a.1 + (l.map Prod.fst).sum,
        a.2.1 || l.any (fun t => t.2.1),
        a.2.2 || l.any (fun t => t.2.2)) := by
  induction l generalizing a with
  | nil => simp
  | cons t l ih =>
    simp only [List.foldl_cons, ih, List.map_cons, List.sum_cons, List.any_cons,
      Prod.mk.injEq]
    refine ⟨by ring, by simp [Bool.or_assoc], by simp [Bool.or_assoc]⟩

theorem filterMap_any_eq (l : List (Option PieceState)) (x : PieceState) :
    (l.filterMap id).any (fun p => decide (p = x)) =
      l.any (fun o => decide (o = some x)) := by
  induction l with
  | nil => rfl
  | cons o l ih => cases o <;> simp [ih]

theorem filterMap_value_sum (l : List (Option PieceState)) :
    (((l.filterMap id).map (fun p => pieceValue (some p))).sum : ℚ) =
      (l.map pieceValue).sum := by
  induction l with
  | nil => rfl
  | cons o l ih =>
    cases o with
    | none =>
      have h0 : pieceValue none = 0 := rfl
      simp only [List.filterMap_cons, id_eq, List.map_cons, List.sum_cons, h0, zero_add, ih]
    | some p =>
      simp only [List.filterMap_cons, id_eq, List.map_cons, List.sum_cons, ih]

theorem list_range_sum (n : Nat) (f : Nat → ℚ) :
    ((List.range n).map f).sum = ∑ i ∈ Finset.range n, f i := by
  induction n with
  | zero => rfl
  | succ n ih => rw [List.range_succ, Finset.sum_range_succ, List.map_append, ← ih]; simp

theorem sum_range64_split (g : Nat → Nat → ℚ) :
    ∑ i ∈ Finset.range 64, g (i / 8 % 8) (i % 8) =
      ∑ r ∈ Finset.range 8, ∑ c ∈ Finset.range 8, g r c := by
  rw [← Finset.sum_product']
  apply Finset.sum_nbij' (fun i => (i / 8 % 8, i % 8)) (fun rc => 8 * rc.1 + rc.2)
  · intro a ha
    simp only [Finset.mem_product, Finset.mem_range]
    omega
  · intro rc hrc
    simp only [Finset.mem_product, Finset.mem_range] at hrc
    simp only [Finset.mem_range]
    omega
  · intro a ha
    simp only [Finset.mem_range] at ha
    omega
  · intro rc hrc
    simp only [Finset.mem_product, Finset.mem_range] at hrc
    obtain ⟨r, c⟩ := rc
    obtain ⟨h1, h2⟩ := hrc
    simp only [Prod.mk.injEq]
    constructor <;> omega
  · intro a ha
    rfl

/-- The iterator sum of signed square values equals the square-indexed
material sum. -/
theorem items_value_sum (b : RawBoard) :
    ((b.items.map pieceValue).sum : ℚ) = materialSum b := by
  have hfin : ∀ x : Nat, (⟨x % 8 % 8, Nat.mod_lt _ (by norm_num)⟩ : Fin 8)
      = ⟨x % 8, Nat.mod_lt _ (by norm_num)⟩ := by
    intro x
    apply Fin.ext
    show x % 8 % 8 = x % 8
    omega
  rw [items_eq_map_getRC, List.map_map, list_range_sum]
  have step1 : ∑ i ∈ Finset.range 64, (pieceValue ∘ b.getRC) i =
      ∑ i ∈ Finset.range 64,
        (fun r c : Nat => pieceValue
          (b.get ⟨⟨r % 8, Nat.mod_lt _ (by norm_num)⟩,
            ⟨c % 8, Nat.mod_lt _ (by norm_num)⟩⟩)) (i / 8 % 8) (i % 8) := by
    apply Finset.sum_congr rfl
    intro i _
    simp only [Function.comp_apply]
    unfold RawBoard.getRC
    rw [hfin (i / 8), hfin i]
  rw [step1, sum_range64_split (fun r c => pieceValue
    (b.get ⟨⟨r % 8, Nat.mod_lt _ (by norm_num)⟩, ⟨c % 8, Nat.mod_lt _ (by norm_num)⟩⟩))]
  unfold materialSum
  rw [Finset.sum_range]
  apply Finset.sum_congr rfl
  intro r _
  rw [Finset.sum_range]
  apply Finset.sum_congr rfl
  intro c _
  have h1 : (⟨r.val % 8, Nat.mod_lt _ (by norm_num)⟩ : Fin 8) = r :=
    Fin.ext (by have := r.isLt; show r.val % 8 = r.val; omega)
  have h2 : (⟨c.val % 8, Nat.mod_lt _ (by norm_num)⟩ : Fin 8) = c :=
    Fin.ext (by have := c.isLt; show c.val % 8 = c.val; omega)
  show pieceValue (b.get ⟨⟨r.val % 8, _⟩, ⟨c.val % 8, _⟩⟩) = pieceValue (b.get ⟨r, c⟩)
  rw [h1, h2]

theorem list_any_map {α β : Type} (l : List α) (f : α → β) (p : β → Bool) :
    (l.map f).any p = l.any (fun a => p (f a)) := by
  induction l with
  | nil => rfl
  | cons a l ih => simp [List.any_cons, ih]

/-- An iterator-level piece search is a board-level piece search. -/
theorem any_king_iff (b : RawBoard) (x : PieceState) :
    b.items.any (fun o => decide (o = some x)) = true ↔
      ∃ p : BoardPos, b.get p = some x := by
  rw [items_eq_map_getRC, list_any_map, List.any_eq_true]
  constructor
  · rintro ⟨i, hmem, hdec⟩
    exact ⟨⟨⟨i / 8 % 8, Nat.mod_lt _ (by norm_num)⟩, ⟨i % 8, Nat.mod_lt _ (by norm_num)⟩⟩,
      of_decide_eq_true hdec⟩
  · rintro ⟨⟨r, c⟩, h⟩
    refine ⟨8 * r.val + c.val,
      List.mem_range.mpr (by have := r.isLt; have := c.isLt; omega), ?_⟩
    apply decide_eq_true
    show b.getRC (8 * r.val + c.val) = some x
    unfold RawBoard.getRC
    have h1 : (⟨(8 * r.val + c.val) / 8 % 8, Nat.mod_lt _ (by norm_num)⟩ : Fin 8) = r := by
      apply Fin.ext
      show (8 * r.val + c.val) / 8 % 8 = r.val
      have := r.isLt
      have := c.isLt
      omega
    have h2 : (⟨(8 * r.val + c.val) % 8, Nat.mod_lt _ (by norm_num)⟩ : Fin 8) = c := by
      apply Fin.ext
      show (8 * r.val + c.val) % 8 = c.val
      have := c.isLt
      omega
    rw [h1, h2, h]

/-- The iterator's king-sighting flag is a `decide`d king-occurrence. -/
theorem items_any_eq_decide (b : RawBoard) (x : PieceState) :
    b.items.any (fun o => decide (o = some x)) =
      decide (∃ p : BoardPos, b.get p = some x) := by
  by_cases h : ∃ p : BoardPos, b.get p = some x
  · rw [(any_king_iff b x).mpr h, decide_eq_true h]
  · have h2 : ¬ b.items.any (fun o => decide (o = some x)) = true :=
      fun hc => h ((any_king_iff b x).mp hc)
    rw [Bool.not_eq_true] at h2
    rw [h2, decide_eq_false h]

/-- C3: `score`'s result policy: material sum when both kings are on the
board, `MATE` when only the white king is, `-MATE` whenever the white king
is absent (whether or not the black king is present). -/
theorem C3_score_result_policy (b : RawBoard) :
    b.score =
      if kingOn White b then
        if kingOn Black b then materialSum b else MATE
      else -MATE := by
  have hpt1 : ∀ p : PieceState, (pieceTriple p).1 = pieceValue (some p) := by
    rintro ⟨k, c⟩
    cases k <;> cases c <;> rfl
  have hptW : ∀ p : PieceState,
      (pieceTriple p).2.1 = decide (p = ⟨King, White⟩) := by
    rintro ⟨k, c⟩
    cases k <;> cases c <;> rfl
  have hptB : ∀ p : PieceState,
      (pieceTriple p).2.2 = decide (p = ⟨King, Black⟩) := by
    rintro ⟨k, c⟩
    cases k <;> cases c <;> rfl
  unfold RawBoard.score scoreFold
  rw [scoreFold_step]
  have hsum : (((b.items.filterMap id).map pieceTriple).map Prod.fst).sum
      = materialSum b := by
    rw [List.map_map]
    have he : (Prod.fst ∘ pieceTriple) = fun p : PieceState => pieceValue (some p) := by
      funext p
      exact hpt1 p
    rw [he, filterMap_value_sum, items_value_sum]
  have hW : ((b.items.filterMap id).map pieceTriple).any (fun t => t.2.1)
      = decide (kingOn White b) := by
    rw [list_any_map]
    have he : (fun p : PieceState => (pieceTriple p).2.1)
        = fun p : PieceState => decide (p = ⟨King, White⟩) := by
      funext p
      exact hptW p
    rw [he, filterMap_any_eq, items_any_eq_decide]
    rfl
  have hB : ((b.items.filterMap id).map pieceTriple).any (fun t => t.2.2)
      = decide (kingOn Black b) := by
    rw [list_any_map]
    have he : (fun p : PieceState => (pieceTriple p).2.2)
        = fun p : PieceState => decide (p = ⟨King, Black⟩) := by
      funext p
      exact hptB p
    rw [he, filterMap_any_eq, items_any_eq_decide]
    rfl
  simp only [hsum, hW, hB, Bool.false_or, zero_add, decide_eq_true_eq]

/-- C7: `is_mate` accepts exactly the scores within 50 units of either
sentinel (`1000` or `-1000`) and rejects every other value. -/
theorem C7_is_mate_window (s : ℚ) :
    is_mate s = true ↔ (|s - 1000| < 50 ∨ |s - (-1000)| < 50) := by
  unfold is_mate MATE
  rw [decide_eq_true_iff]
  rw [abs_lt, abs_lt, abs_lt]
  rcases le_or_lt 0 s with hs | hs
  · rw [abs_of_nonneg hs]
    constructor
    · intro h
      left
      constructor <;> linarith [h.1, h.2]
    · rintro (h | h) <;> constructor <;> linarith [h.1, h.2, hs]
  · rw [abs_of_neg hs]
    constructor
    · intro h
      right
      constructor <;> linarith [h.1, h.2]
    · rintro (h | h) <;> constructor <;> linarith [h.1, h.2, hs]

theorem start_get : ∀ r c : Fin 8, startBoard.get ⟨r, c⟩ = startPlacement r c := by
  decide

theorem start_material : materialSum startBoard = 0 := by
  have h : ∀ r c : Fin 8,
      pieceValue (startBoard.get ⟨r, c⟩) = pieceValue (startPlacement r c) := by
    intro r c
    rw [start_get]
  unfold materialSum
  simp only [h]
  simp [Fin.sum_univ_eight, startPlacement, backRankKind, pieceValue, kindValue]
  norm_num

/-- C8: with both kings on the board, `score` is the sum of the signed
material values (pawn 1, knight 3, bishop 3.1, rook 5, queen 9, king 0;
white positive, black negative) over all squares, and the standard
starting position scores 0. -/
theorem C8_material_sum :
    (∀ b : RawBoard, kingOn White b → kingOn Black b → b.score = materialSum b) ∧
      startBoard.score = 0 := by
  have main : ∀ b : RawBoard, kingOn White b → kingOn Black b →
      b.score = materialSum b := by
    intro b hw hb
    rw [C3_score_result_policy, if_pos hw, if_pos hb]
  refine ⟨main, ?_⟩
  rw [main startBoard (by decide) (by decide), start_material]

/-- Witness for C8: the starting position has both kings, so its score is
its material sum. -/
theorem C8_material_sum_witness : startBoard.score = materialSum startBoard :=
  C8_material_sum.1 startBoard (by decide) (by decide)

/-- Witness for C1: concrete instance at index 10 of the empty board. -/
theorem C1_iterator_row_major_witness :
    RawBoard.empty.items.length = 64 ∧
      RawBoard.empty.items[10]? =
        some (RawBoard.empty.get ⟨⟨10 / 8, by omega⟩, ⟨10 % 8, Nat.mod_lt _ (by norm_num)⟩⟩) :=
  ⟨(C1_iterator_row_major.1 RawBoard.empty).1,
    (C1_iterator_row_major.1 RawBoard.empty).2 10 (by norm_num)⟩

/-- Witness for C9: writing a white queen to a1 does not change b1. -/
theorem C9_set_loc_frame_witness :
    (RawBoard.empty.set_loc ⟨0, 0⟩ (some ⟨Queen, White⟩)).get ⟨0, 1⟩ =
      RawBoard.empty.get ⟨0, 1⟩ :=
  C9_set_loc_frame RawBoard.empty ⟨0, 0⟩ ⟨0, 1⟩ (some ⟨Queen, White⟩) (by decide)

namespace BoardContinuation

/-! ### Claims C5 and C10: destructive lookup and duplicate entries -/

theorem withEntries_self (bc : BoardContinuation) :
    bc.withEntries bc.continuation = bc := by
  cases bc
  rfl

theorem continuation_withEntries (bc : BoardContinuation)
    (l : List (PossibleMove × BoardContinuation)) :
    (bc.withEntries l).continuation = l := by
  cases bc
  rfl

theorem fcr_fst (bc : BoardContinuation) (m : PossibleMove) :
    (find_continuation_remove bc m).1 = (removeFirst m bc.continuation).1 := rfl

theorem fcr_snd (bc : BoardContinuation) (m : PossibleMove) :
    (find_continuation_remove bc m).2 =
      bc.withEntries (removeFirst m bc.continuation).2 := rfl

theorem continuation_exists_iff (bc : BoardContinuation) (m : PossibleMove) :
    continuation_exists bc m = true ↔ ∃ e ∈ bc.continuation, e.1 = m := by
  unfold continuation_exists keys
  rw [List.any_eq_true]
  constructor
  · rintro ⟨x, hx, hdec⟩
    obtain ⟨e, he, rfl⟩ := List.mem_map.mp hx
    exact ⟨e, he, of_decide_eq_true hdec⟩
  · rintro ⟨e, he, h⟩
    exact ⟨e.1, List.mem_map.mpr ⟨e, he, rfl⟩, decide_eq_true h⟩

theorem removeFirst_none_snd (m : PossibleMove)
    (l : List (PossibleMove × BoardContinuation)) (h : (removeFirst m l).1 = none) :
    (removeFirst m l).2 = l := by
  induction l with
  | nil => rfl
  | cons e rest ih =>
    by_cases he : e.1 = m
    · rw [removeFirst, if_pos he] at h
      exact absurd h (by simp)
    · rw [removeFirst, if_neg he] at h ⊢
      simp only at h ⊢
      rw [ih h]

theorem removeFirst_isSome_iff (m : PossibleMove)
    (l : List (PossibleMove × BoardContinuation)) :
    (removeFirst m l).1.isSome = true ↔ ∃ e ∈ l, e.1 = m := by
  induction l with
  | nil => simp [removeFirst]
  | cons e rest ih =>
    by_cases he : e.1 = m
    · simp [removeFirst, if_pos he, he]
    · simp only [removeFirst, if_neg he]
      rw [List.exists_mem_cons_iff]
      simp only [ih]
      constructor
      · exact Or.inr
      · rintro (h | h)
        · exact absurd h he
        · exact h

theorem removeFirst_some (m : PossibleMove)
    (l : List (PossibleMove × BoardContinuation)) (c : BoardContinuation)
    (h : (removeFirst m l).1 = some c) :
    ∃ pre post, l = pre ++ (m, c) :: post ∧ (removeFirst m l).2 = pre ++ post ∧
      ∀ e ∈ pre, e.1 ≠ m := by
  induction l with
  | nil => exact absurd h (by simp [removeFirst])
  | cons e rest ih =>
    by_cases he : e.1 = m
    · rw [removeFirst, if_pos he] at h
      simp only [Option.some.injEq] at h
      refine ⟨[], rest, ?_, ?_, by simp⟩
      · simp only [List.nil_append]
        rw [show e = (m, c) from Prod.ext he h]
      · rw [removeFirst, if_pos he]
        simp
    · rw [removeFirst, if_neg he] at h
      simp only at h
      obtain ⟨pre, post, hl, hsnd, hpre⟩ := ih h
      refine ⟨e :: pre, post, by rw [hl]; rfl, ?_, ?_⟩
      · rw [removeFirst, if_neg he]
        simp only [hsnd]
        rfl
      · intro x hx
        rcases List.mem_cons.mp hx with rfl | hx
        · exact he
        · exact hpre x hx

/-- C5: `find_continuation_remove` succeeds exactly when an entry with the
move exists; a miss leaves the tree unchanged; a hit removes exactly the
first matching entry and is what `make_cached_move` hands back; and with
duplicate-free keys the taken move is no longer found afterwards. -/
theorem C5_take_continuation (bc : BoardContinuation) (m : PossibleMove) :
    ((find_continuation_remove bc m).1.isSome = true ↔ continuation_exists bc m = true) ∧
    ((find_continuation_remove bc m).1 = none → (find_continuation_remove bc m).2 = bc) ∧
    (∀ c, (find_continuation_remove bc m).1 = some c →
      (∃ pre post, bc.continuation = pre ++ (m, c) :: post ∧
        (find_continuation_remove bc m).2.continuation = pre ++ post ∧
        ∀ e ∈ pre, e.1 ≠ m) ∧
      ∀ f, make_cached_move f bc m = c) ∧
    (bc.keys.Nodup → ∀ c, (find_continuation_remove bc m).1 = some c →
      continuation_exists (find_continuation_remove bc m).2 m = false) := by
  refine ⟨?_, ?_, ?_, ?_⟩
  · rw [fcr_fst, removeFirst_isSome_iff, continuation_exists_iff]
  · intro h
    rw [fcr_fst] at h
    rw [fcr_snd, removeFirst_none_snd m bc.continuation h, withEntries_self]
  · intro c hc
    rw [fcr_fst] at hc
    obtain ⟨pre, post, hl, hsnd, hpre⟩ := removeFirst_some m bc.continuation c hc
    refine ⟨⟨pre, post, hl, ?_, hpre⟩, ?_⟩
    · rw [fcr_snd, continuation_withEntries, hsnd]
    · intro f
      unfold make_cached_move
      rw [fcr_fst, hc]
  · intro hnd c hc
    rw [fcr_fst] at hc
    obtain ⟨pre, post, hl, hsnd, _⟩ := removeFirst_some m bc.continuation c hc
    have hkeys : bc.keys = pre.map Prod.fst ++ m :: post.map Prod.fst := by
      unfold keys
      rw [hl]
      simp
    have hm : m ∉ pre.map Prod.fst ++ post.map Prod.fst := by
      rw [hkeys] at hnd
      intro hmem
      rcases List.mem_append.mp hmem with h | h
      · exact (List.disjoint_of_nodup_append hnd) h (List.mem_cons_self m _)
      · have := (List.nodup_append.mp hnd).2.1
        exact (List.nodup_cons.mp this).1 h
    rw [Bool.eq_false_iff]
    intro hex
    obtain ⟨e, he, hme⟩ := (continuation_exists_iff _ m).mp hex
    apply hm
    rw [fcr_snd, continuation_withEntries, hsnd] at he
    rw [← List.map_append]
    exact List.mem_map.mpr ⟨e, he, hme⟩

/-- C10: after inserting the same move twice (no duplicate check), one
take removes exactly one matching entry and the move still exists. -/
theorem C10_duplicate_insert (bc : BoardContinuation) (m : PossibleMove)
    (b1 b2 : PSBoard) :
    (find_continuation_remove ((bc.insert_psboard m b1).insert_psboard m b2) m).1.isSome
        = true ∧
    (∃ pre post c,
      ((bc.insert_psboard m b1).insert_psboard m b2).continuation
          = pre ++ (m, c) :: post ∧
      (find_continuation_remove ((bc.insert_psboard m b1).insert_psboard m b2) m).2.continuation
          = pre ++ post) ∧
    continuation_exists
      (find_continuation_remove ((bc.insert_psboard m b1).insert_psboard m b2) m).2 m
        = true := by
  set bc2 := (bc.insert_psboard m b1).insert_psboard m b2 with hbc2
  have hl : bc2.continuation = bc.continuation ++ [(m, new b1)] ++ [(m, new b2)] := by
    rw [hbc2]
    unfold insert_psboard
    simp only [continuation_withEntries]
  have hsome : (find_continuation_remove bc2 m).1.isSome = true := by
    rw [fcr_fst, removeFirst_isSome_iff]
    exact ⟨(m, new b2), by rw [hl]; simp, rfl⟩
  obtain ⟨c, hc⟩ := Option.isSome_iff_exists.mp hsome
  rw [fcr_fst] at hc
  obtain ⟨pre, post, hdec, hsnd, _⟩ := removeFirst_some m bc2.continuation c hc
  have hcount : 2 ≤ bc2.continuation.countP (fun e => decide (e.1 = m)) := by
    rw [hl]
    rw [List.countP_append, List.countP_append]
    simp
  have hsnd2 : (find_continuation_remove bc2 m).2.continuation = pre ++ post := by
    rw [fcr_snd, continuation_withEntries, hsnd]
  refine ⟨hsome, ⟨pre, post, c, hdec, hsnd2⟩, ?_⟩
  rw [continuation_exists_iff]
  have hcount2 : 0 < (pre ++ post).countP (fun e => decide (e.1 = m)) := by
    have : bc2.continuation.countP (fun e => decide (e.1 = m)) =
        (pre ++ post).countP (fun e => decide (e.1 = m)) + 1 := by
      rw [hdec]
      rw [List.countP_append, List.countP_cons, List.countP_append]
      simp
      omega
    omega
  obtain ⟨e, he, hme⟩ := List.countP_pos.mp hcount2
  exact ⟨e, by rw [hsnd2]; exact he, of_decide_eq_true hme⟩

/-! ### Claim C6: similar-quality selection -/

/-- C6: every child passed by `similar_quality_moves` is within 0.05 of
the reference score; `select_similar_board` only ever returns members of
that list, and returns nothing for every draw when the list is empty (the
RNG call itself is the fatal path in the source). -/
theorem C6_similar_quality (self best : BoardContinuation)
    (score_query : BoardContinuation → ℚ) :
    (∀ c ∈ similar_quality_moves self best score_query,
      |score_query c - score_query best| < 0.05) ∧
    (∀ k c, select_similar_board self best score_query k = some c →
      c ∈ similar_quality_moves self best score_query) ∧
    (similar_quality_moves self best score_query = [] →
      ∀ k, select_similar_board self best score_query k = none) := by
  refine ⟨?_, ?_, ?_⟩
  · intro c hc
    unfold similar_quality_moves at hc
    have h := of_decide_eq_true (List.mem_filter.mp hc).2
    rw [← max_sub_min_eq_abs, max_comm, min_comm]
    exact h
  · intro k c h
    unfold select_similar_board at h
    exact List.getElem?_mem h
  · intro h k
    unfold select_similar_board
    rw [h]
    rfl

/-- Witness for C5: on a concrete one-entry tree the take succeeds and the
taken move is no longer found. -/
theorem C5_take_continuation_witness :
    (find_continuation_remove wNode wMove).1.isSome = true ∧
    continuation_exists (find_continuation_remove wNode wMove).2 wMove = false :=
  ⟨((C5_take_continuation wNode wMove).1).mpr (by decide),
    (C5_take_continuation wNode wMove).2.2.2 (by decide) wLeaf rfl⟩

theorem wSimilar :
    similar_quality_moves wNode wLeaf (fun _ => 0) = [wLeaf] := by
  unfold similar_quality_moves values wNode
  simp only [continuation]
  rw [List.map_cons, List.map_nil, List.filter_cons]
  have hcond : (max ((fun _ : BoardContinuation => (0 : ℚ)) wLeaf) ((fun _ => (0 : ℚ)) wLeaf)
      - min ((fun _ : BoardContinuation => (0 : ℚ)) wLeaf) ((fun _ => (0 : ℚ)) wLeaf)) < 0.05 := by
    norm_num
  rw [decide_eq_true hcond]
  rfl

/-- Witness for C6: on a concrete one-child tree with the constant score
function, the child qualifies and the draw 0 selects it. -/
theorem C6_similar_quality_witness :
    |(fun _ : BoardContinuation => (0 : ℚ)) wLeaf -
        (fun _ : BoardContinuation => (0 : ℚ)) wLeaf| < 0.05 ∧
    wLeaf ∈ similar_quality_moves wNode wLeaf (fun _ => 0) :=
  ⟨(C6_similar_quality wNode wLeaf (fun _ => 0)).1 wLeaf
      (by rw [wSimilar]; exact List.mem_singleton.mpr rfl),
    (C6_similar_quality wNode wLeaf (fun _ => 0)).2.1 0 wLeaf (by
      unfold select_similar_board
      rw [wSimilar]
      rfl)⟩

/-! ### Claim C4: merge -/

theorem hasPath_nil (t : BoardContinuation) : hasPath [] t = true := rfl

theorem hasPath_cons (m : PossibleMove) (ms : List PossibleMove) (t : BoardContinuation) :
    hasPath (m :: ms) t =
      t.continuation.any fun e => decide (e.1 = m) && hasPath ms e.2 := rfl

theorem total_def (t : BoardContinuation) :
    total_continuation_boards t = t.continuation.length + totalEntries t.continuation := by
  rw [total_continuation_boards]

theorem totalEntries_nil : totalEntries [] = 0 := by
  rw [totalEntries]

theorem totalEntries_cons (m : PossibleMove) (sub : BoardContinuation)
    (rest : List (PossibleMove × BoardContinuation)) :
    totalEntries ((m, sub) :: rest) =
      total_continuation_boards sub + totalEntries rest := by
  rw [totalEntries]

theorem totalEntries_append (l1 l2 : List (PossibleMove × BoardContinuation)) :
    totalEntries (l1 ++ l2) = totalEntries l1 + totalEntries l2 := by
  induction l1 with
  | nil => rw [List.nil_append, totalEntries_nil, Nat.zero_add]
  | cons e rest ih =>
    obtain ⟨m, sub⟩ := e
    rw [List.cons_append, totalEntries_cons, totalEntries_cons, ih]
    omega

theorem mergeEntries_nil (self : BoardContinuation) : mergeEntries self [] = self := by
  rw [mergeEntries]

theorem mergeEntries_cons (self : BoardContinuation) (m : PossibleMove)
    (sub : BoardContinuation) (rest : List (PossibleMove × BoardContinuation)) :
    mergeEntries self ((m, sub) :: rest) = mergeEntries (mergeStep self m sub) rest := by
  rw [mergeEntries]

theorem merge_def (self t : BoardContinuation) :
    merge self t = mergeEntries self t.continuation := by
  rw [merge]

theorem mergeStep_found (self : BoardContinuation) (m : PossibleMove)
    (sub e : BoardContinuation) (h : findFirst m self.continuation = some e) :
    mergeStep self m sub =
      self.withEntries (setFirst m (merge e sub) self.continuation) := by
  rw [mergeStep, h]

theorem mergeStep_none (self : BoardContinuation) (m : PossibleMove)
    (sub : BoardContinuation) (h : findFirst m self.continuation = none) :
    mergeStep self m sub = self.withEntries (self.continuation ++ [(m, sub)]) := by
  rw [mergeStep, h]

theorem setFirst_length (m : PossibleMove) (v : BoardContinuation)
    (l : List (PossibleMove × BoardContinuation)) :
    (setFirst m v l).length = l.length := by
  induction l with
  | nil => rfl
  | cons e rest ih =>
    rw [setFirst]
    by_cases he : e.1 = m
    · rw [if_pos he]
      rfl
    · rw [if_neg he, List.length_cons, List.length_cons, ih]

theorem setFirst_total (m : PossibleMove) (v : BoardContinuation)
    (l : List (PossibleMove × BoardContinuation)) (e : BoardContinuation)
    (h : findFirst m l = some e) :
    totalEntries (setFirst m v l) + total_continuation_boards e =
      totalEntries l + total_continuation_boards v := by
  induction l with
  | nil => exact absurd h (by rw [findFirst]; simp)
  | cons en rest ih =>
    obtain ⟨m0, sub0⟩ := en
    rw [findFirst] at h
    rw [setFirst]
    by_cases he : (m0, sub0).1 = m
    · rw [if_pos he] at h ⊢
      simp only [Option.some.injEq] at h
      rw [totalEntries_cons, totalEntries_cons, h]
      omega
    · rw [if_neg he] at h ⊢
      rw [totalEntries_cons, totalEntries_cons]
      have := ih h
      omega

theorem setFirst_any_preserve (m : PossibleMove) (v : BoardContinuation)
    (l : List (PossibleMove × BoardContinuation)) (e : BoardContinuation)
    (h : findFirst m l = some e) (f : BoardContinuation → Bool)
    (hv : f e = true → f v = true) (g : PossibleMove → Bool)
    (hany : (l.any fun en => g en.1 && f en.2) = true) :
    ((setFirst m v l).any fun en => g en.1 && f en.2) = true := by
  induction l with
  | nil => exact absurd h (by rw [findFirst]; simp)
  | cons en rest ih =>
    obtain ⟨m0, sub0⟩ := en
    rw [findFirst] at h
    simp only [List.any_cons, Bool.or_eq_true, Bool.and_eq_true] at hany
    rw [setFirst]
    by_cases he : (m0, sub0).1 = m
    · rw [if_pos he] at h ⊢
      simp only [Option.some.injEq] at h
      simp only [List.any_cons, Bool.or_eq_true, Bool.and_eq_true]
      rcases hany with ⟨hg, hf⟩ | hh
      · exact Or.inl ⟨hg, hv (h ▸ hf)⟩
      · exact Or.inr hh
    · rw [if_neg he] at h ⊢
      simp only [List.any_cons, Bool.or_eq_true, Bool.and_eq_true]
      rcases hany with hh | hh
      · exact Or.inl hh
      · exact Or.inr (ih h hh)

theorem setFirst_any_new (m : PossibleMove) (v : BoardContinuation)
    (l : List (PossibleMove × BoardContinuation)) (e : BoardContinuation)
    (h : findFirst m l = some e) (f : BoardContinuation → Bool) (hf : f v = true) :
    ((setFirst m v l).any fun en => decide (en.1 = m) && f en.2) = true := by
  induction l with
  | nil => exact absurd h (by rw [findFirst]; simp)
  | cons en rest ih =>
    obtain ⟨m0, sub0⟩ := en
    rw [findFirst] at h
    rw [setFirst]
    by_cases he : (m0, sub0).1 = m
    · rw [if_pos he]
      simp only [List.any_cons, Bool.or_eq_true, Bool.and_eq_true]
      exact Or.inl ⟨decide_eq_true he, hf⟩
    · rw [if_neg he] at h ⊢
      simp only [List.any_cons, Bool.or_eq_true, Bool.and_eq_true]
      exact Or.inr (ih h)

/-- Merging drained entries into a tree never loses the tree's own
reachable paths. -/
theorem hasPath_mergeEntries_self :
    ∀ (n : Nat) (l : List (PossibleMove × BoardContinuation)), sizeOf l ≤ n →
      ∀ (self : BoardContinuation) (p : List PossibleMove),
        hasPath p self = true → hasPath p (mergeEntries self l) = true := by
  intro n
  induction n with
  | zero =>
    intro l hle
    exfalso
    cases l with
    | nil => simp at hle
    | cons e rest =>
      simp only [List.cons.sizeOf_spec] at hle
      omega
  | succ n ih =>
    intro l hle self p hp
    cases l with
    | nil =>
      rw [mergeEntries_nil]
      exact hp
    | cons en rest =>
      obtain ⟨m, sub⟩ := en
      have hsz : sizeOf ((m, sub) :: rest) = 1 + (1 + sizeOf m + sizeOf sub) + sizeOf rest := by
        simp
      have hrest : sizeOf rest ≤ n := by omega
      have hsubc : sizeOf sub.continuation ≤ n := by
        have h1 : sizeOf sub.continuation < sizeOf sub := by
          cases sub with | mk b s l2 => simp [continuation]
        omega
      rw [mergeEntries_cons]
      apply ih rest hrest
      cases hff : findFirst m self.continuation with
      | none =>
        rw [mergeStep_none self m sub hff]
        cases p with
        | nil => exact hasPath_nil _
        | cons m' ms =>
          rw [hasPath_cons] at hp ⊢
          rw [continuation_withEntries, List.any_append, Bool.or_eq_true]
          exact Or.inl hp
      | some e =>
        rw [mergeStep_found self m sub e hff]
        cases p with
        | nil => exact hasPath_nil _
        | cons m' ms =>
          rw [hasPath_cons] at hp ⊢
          rw [continuation_withEntries]
          exact setFirst_any_preserve m (merge e sub) self.continuation e hff
            (hasPath ms)
            (fun hq => by
              rw [merge_def]
              exact ih sub.continuation hsubc e ms hq)
            (fun k => decide (k = m')) hp

/-- Every drained path ends up reachable in the merged tree. -/
theorem hasPath_mergeEntries_src :
    ∀ (n : Nat) (l : List (PossibleMove × BoardContinuation)), sizeOf l ≤ n →
      ∀ (self : BoardContinuation) (m : PossibleMove) (ms : List PossibleMove),
        (l.any fun e => decide (e.1 = m) && hasPath ms e.2) = true →
        hasPath (m :: ms) (mergeEntries self l) = true := by
  intro n
  induction n with
  | zero =>
    intro l hle
    exfalso
    cases l with
    | nil => simp at hle
    | cons e rest =>
      simp only [List.cons.sizeOf_spec] at hle
      omega
  | succ n ih =>
    intro l hle self m ms hany
    cases l with
    | nil => simp at hany
    | cons en rest =>
      obtain ⟨m0, sub0⟩ := en
      have hsz : sizeOf ((m0, sub0) :: rest) = 1 + (1 + sizeOf m0 + sizeOf sub0) + sizeOf rest := by
        simp
      have hrest : sizeOf rest ≤ n := by omega
      have hsub0c : sizeOf sub0.continuation ≤ n := by
        have h1 : sizeOf sub0.continuation < sizeOf sub0 := by
          cases sub0 with | mk b s l2 => simp [continuation]
        omega
      rw [mergeEntries_cons]
      simp only [List.any_cons, Bool.or_eq_true, Bool.and_eq_true] at hany
      rcases hany with ⟨hm0, hsub0⟩ | hrestany
      · have hm0' : m0 = m := of_decide_eq_true hm0
        subst hm0'
        apply hasPath_mergeEntries_self n rest hrest
        cases hff : findFirst m0 self.continuation with
        | none =>
          rw [mergeStep_none self m0 sub0 hff]
          rw [hasPath_cons, continuation_withEntries, List.any_append, Bool.or_eq_true]
          right
          simp only [List.any_cons, List.any_nil, Bool.or_eq_true, Bool.and_eq_true,
            Bool.or_eq_false_iff]
          refine Or.inl ⟨?_, hsub0⟩
          simp
        | some e =>
          rw [mergeStep_found self m0 sub0 e hff]
          rw [hasPath_cons, continuation_withEntries]
          apply setFirst_any_new m0 (merge e sub0) self.continuation e hff (hasPath ms)
          cases ms with
          | nil => exact hasPath_nil _
          | cons m1 ms1 =>
            rw [merge_def]
            rw [hasPath_cons] at hsub0
            exact ih sub0.continuation hsub0c e m1 ms1 hsub0
      · exact ih rest hrest (mergeStep self m0 sub0) m ms hrestany

/-- Merging never shrinks the tree merged into. -/
theorem total_mergeEntries_ge :
    ∀ (n : Nat) (l : List (PossibleMove × BoardContinuation)), sizeOf l ≤ n →
      ∀ self : BoardContinuation,
        total_continuation_boards self ≤
          total_continuation_boards (mergeEntries self l) := by
  intro n
  induction n with
  | zero =>
    intro l hle
    exfalso
    cases l with
    | nil => simp at hle
    | cons e rest =>
      simp only [List.cons.sizeOf_spec] at hle
      omega
  | succ n ih =>
    intro l hle self
    cases l with
    | nil =>
      rw [mergeEntries_nil]
    | cons en rest =>
      obtain ⟨m, sub⟩ := en
      have hsz : sizeOf ((m, sub) :: rest) = 1 + (1 + sizeOf m + sizeOf sub) + sizeOf rest := by
        simp
      have hrest : sizeOf rest ≤ n := by omega
      have hsubc : sizeOf sub.continuation ≤ n := by
        have h1 : sizeOf sub.continuation < sizeOf sub := by
          cases sub with | mk b s l2 => simp [continuation]
        omega
      rw [mergeEntries_cons]
      have hstep : total_continuation_boards self ≤
          total_continuation_boards (mergeStep self m sub) := by
        cases hff : findFirst m self.continuation with
        | none =>
          rw [mergeStep_none self m sub hff, total_def, total_def, continuation_withEntries,
            List.length_append, totalEntries_append, totalEntries_cons, totalEntries_nil]
          omega
        | some e =>
          have hev : total_continuation_boards e ≤ total_continuation_boards (merge e sub) := by
            rw [merge_def]
            exact ih sub.continuation hsubc e
          have hset := setFirst_total m (merge e sub) self.continuation e hff
          rw [mergeStep_found self m sub e hff, total_def, total_def, continuation_withEntries,
            setFirst_length]
          omega
      exact le_trans hstep (ih rest hrest _)

theorem pathsOf_def (t : BoardContinuation) : pathsOf t = pathsEntries t.continuation := by
  rw [pathsOf]

theorem pathsEntries_nil : pathsEntries [] = [] := by
  rw [pathsEntries]

theorem pathsEntries_cons (m : PossibleMove) (sub : BoardContinuation)
    (rest : List (PossibleMove × BoardContinuation)) :
    pathsEntries ((m, sub) :: rest) =
      [m] :: (pathsOf sub).map (fun p => m :: p) ++ pathsEntries rest := by
  rw [pathsEntries]

theorem nodupDeep_def (t : BoardContinuation) :
    nodupDeep t = (decide t.keys.Nodup && nodupEntries t.continuation) := by
  rw [nodupDeep]

theorem nodupEntries_nil : nodupEntries [] = true := by
  rw [nodupEntries]

theorem nodupEntries_cons (m : PossibleMove) (sub : BoardContinuation)
    (rest : List (PossibleMove × BoardContinuation)) :
    nodupEntries ((m, sub) :: rest) = (nodupDeep sub && nodupEntries rest) := by
  rw [nodupEntries]

/-- A tree's node count equals its path count (with multiplicity). -/
theorem paths_count :
    ∀ n : Nat,
      (∀ t : BoardContinuation, sizeOf t ≤ n →
        total_continuation_boards t = (pathsOf t).length) ∧
      (∀ l : List (PossibleMove × BoardContinuation), sizeOf l ≤ n →
        totalEntries l + l.length = (pathsEntries l).length) := by
  intro n
  induction n with
  | zero =>
    constructor
    · intro t hle
      exfalso
      cases t with
      | mk b s l =>
        simp only [mk.sizeOf_spec] at hle
        omega
    · intro l hle
      exfalso
      cases l with
      | nil => simp at hle
      | cons e rest =>
        simp only [List.cons.sizeOf_spec] at hle
        omega
  | succ n ih =>
    constructor
    · intro t hle
      cases t with
      | mk b s l =>
        have hsz : sizeOf (mk b s l) = 1 + sizeOf b + sizeOf s + sizeOf l := by simp
        have hl : sizeOf l ≤ n := by omega
        have h2 := ih.2 l hl
        rw [total_def, pathsOf_def]
        show l.length + totalEntries l = (pathsEntries l).length
        omega
    · intro l hle
      cases l with
      | nil =>
        rw [totalEntries_nil, pathsEntries_nil]
        rfl
      | cons en rest =>
        obtain ⟨m, sub⟩ := en
        have hsz : sizeOf ((m, sub) :: rest) =
            1 + (1 + sizeOf m + sizeOf sub) + sizeOf rest := by simp
        have hsub : sizeOf sub ≤ n := by omega
        have hrest : sizeOf rest ≤ n := by omega
        have h1 := ih.1 sub hsub
        have h2 := ih.2 rest hrest
        rw [totalEntries_cons, pathsEntries_cons]
        simp only [List.length_append, List.length_cons, List.length_map]
        omega

theorem nil_not_mem_pathsEntries :
    ∀ l : List (PossibleMove × BoardContinuation),
      ([] : List PossibleMove) ∉ pathsEntries l := by
  intro l
  induction l with
  | nil =>
    rw [pathsEntries_nil]
    simp
  | cons en rest ih =>
    obtain ⟨m, sub⟩ := en
    rw [pathsEntries_cons]
    intro hmem
    rcases List.mem_cons.mp hmem with h | h
    · exact absurd h (by simp)
    · rcases List.mem_append.mp h with h2 | h2
      · obtain ⟨q, _, hq⟩ := List.mem_map.mp h2
        exact absurd hq (by simp)
      · exact ih h2

theorem head_mem_keys :
    ∀ (l : List (PossibleMove × BoardContinuation)) (p : List PossibleMove),
      p ∈ pathsEntries l → ∃ m' tail, p = m' :: tail ∧ m' ∈ l.map Prod.fst := by
  intro l
  induction l with
  | nil =>
    intro p h
    rw [pathsEntries_nil] at h
    simp at h
  | cons en rest ih =>
    obtain ⟨m, sub⟩ := en
    intro p h
    rw [pathsEntries_cons] at h
    rcases List.mem_cons.mp h with h | h
    · exact ⟨m, [], h, by simp⟩
    · rcases List.mem_append.mp h with h2 | h2
      · obtain ⟨q, _, hq⟩ := List.mem_map.mp h2
        exact ⟨m, q, hq.symm, by simp⟩
      · obtain ⟨m', tail, hp, hmem⟩ := ih p h2
        refine ⟨m', tail, hp, ?_⟩
        rw [List.map_cons]
        exact List.mem_cons.mpr (Or.inr hmem)

/-- Membership in the path list is exactly path reachability for nonempty
paths. -/
theorem cons_mem_pathsEntries :
    ∀ (ms : List PossibleMove) (m : PossibleMove)
      (l : List (PossibleMove × BoardContinuation)),
      (m :: ms) ∈ pathsEntries l ↔
        (l.any fun e => decide (e.1 = m) && hasPath ms e.2) = true := by
  intro ms
  induction ms with
  | nil =>
    intro m l
    induction l with
    | nil =>
      rw [pathsEntries_nil]
      simp
    | cons en rest ihl =>
      obtain ⟨m0, sub0⟩ := en
      rw [pathsEntries_cons]
      simp only [List.any_cons, Bool.or_eq_true, Bool.and_eq_true, List.mem_cons,
        List.mem_append]
      constructor
      · rintro ((h | h) | h)
        · have hm : m = m0 := by simpa using h
          exact Or.inl ⟨decide_eq_true hm.symm, hasPath_nil _⟩
        · obtain ⟨q, hq, heq⟩ := List.mem_map.mp h
          have hq0 : q = [] := by
            have := (List.cons.injEq m0 q m []).mp heq
            exact this.2
          rw [pathsOf_def] at hq
          exact absurd (hq0 ▸ hq) (nil_not_mem_pathsEntries sub0.continuation)
        · exact Or.inr (ihl.mp h)
      · rintro (⟨hdec, _⟩ | h)
        · have hm : m0 = m := of_decide_eq_true hdec
          exact Or.inl (Or.inl (by rw [hm]))
        · exact Or.inr (ihl.mpr h)
  | cons m1 ms1 ihms =>
    intro m l
    induction l with
    | nil =>
      rw [pathsEntries_nil]
      simp
    | cons en rest ihl =>
      obtain ⟨m0, sub0⟩ := en
      rw [pathsEntries_cons]
      simp only [List.any_cons, Bool.or_eq_true, Bool.and_eq_true, List.mem_cons,
        List.mem_append]
      constructor
      · rintro ((h | h) | h)
        · exact absurd h (by simp)
        · obtain ⟨q, hq, heq⟩ := List.mem_map.mp h
          have hinj := (List.cons.injEq m0 q (m) (m1 :: ms1)).mp heq
          refine Or.inl ⟨decide_eq_true hinj.1, ?_⟩
          rw [hasPath_cons]
          rw [pathsOf_def] at hq
          exact (ihms m1 sub0.continuation).mp (hinj.2 ▸ hq)
        · exact Or.inr (ihl.mp h)
      · rintro (⟨hdec, hpath⟩ | h)
        · refine Or.inl (Or.inr ?_)
          apply List.mem_map.mpr
          refine ⟨m1 :: ms1, ?_, ?_⟩
          · rw [pathsOf_def]
            rw [hasPath_cons] at hpath
            exact (ihms m1 sub0.continuation).mpr hpath
          · rw [of_decide_eq_true hdec]
        · exact Or.inr (ihl.mpr h)

/-- With duplicate-free sibling moves at every depth, all listed paths are
distinct. -/
theorem pathsEntries_nodup :
    ∀ (n : Nat) (l : List (PossibleMove × BoardContinuation)), sizeOf l ≤ n →
      (l.map Prod.fst).Nodup → nodupEntries l = true → (pathsEntries l).Nodup := by
  intro n
  induction n with
  | zero =>
    intro l hle
    exfalso
    cases l with
    | nil => simp at hle
    | cons e rest =>
      simp only [List.cons.sizeOf_spec] at hle
      omega
  | succ n ih =>
    intro l hle hkeys hnd
    cases l with
    | nil =>
      rw [pathsEntries_nil]
      exact List.nodup_nil
    | cons en rest =>
      obtain ⟨m0, sub0⟩ := en
      have hsz : sizeOf ((m0, sub0) :: rest) =
          1 + (1 + sizeOf m0 + sizeOf sub0) + sizeOf rest := by simp
      have hrest : sizeOf rest ≤ n := by omega
      have hsub0c : sizeOf sub0.continuation ≤ n := by
        have h1 : sizeOf sub0.continuation < sizeOf sub0 := by
          cases sub0 with | mk b s l2 => simp [continuation]
        omega
      rw [List.map_cons] at hkeys
      have hkc := List.nodup_cons.mp hkeys
      rw [nodupEntries_cons, Bool.and_eq_true] at hnd
      obtain ⟨hndsub, hndrest⟩ := hnd
      rw [nodupDeep_def, Bool.and_eq_true] at hndsub
      obtain ⟨hksub, hentsub⟩ := hndsub
      have hksub' : (sub0.continuation.map Prod.fst).Nodup := of_decide_eq_true hksub
      have hsubnd : (pathsOf sub0).Nodup := by
        rw [pathsOf_def]
        exact ih sub0.continuation hsub0c hksub' hentsub
      have hrestnd : (pathsEntries rest).Nodup := ih rest hrest hkc.2 hndrest
      rw [pathsEntries_cons, List.nodup_append]
      refine ⟨?_, hrestnd, ?_⟩
      · rw [List.nodup_cons]
        constructor
        · intro hmem
          obtain ⟨q, hq, heq⟩ := List.mem_map.mp hmem
          have hq0 : q = [] := ((List.cons.injEq m0 q m0 []).mp heq).2
          rw [pathsOf_def] at hq
          exact nil_not_mem_pathsEntries sub0.continuation (hq0 ▸ hq)
        · exact List.Nodup.map (fun p q hpq => by simpa using hpq) hsubnd
      · intro p hp hp2
        obtain ⟨m', tail, hptail, hmem⟩ := head_mem_keys rest p hp2
        have hm0 : m' = m0 := by
          rcases List.mem_cons.mp hp with h | h
          · rw [hptail] at h
            exact ((List.cons.injEq m' tail m0 []).mp h).1
          · obtain ⟨q, _, heq⟩ := List.mem_map.mp h
            rw [hptail] at heq
            exact (((List.cons.injEq m0 q m' tail).mp heq).1).symm
        exact hkc.1 (hm0 ▸ hmem)

/-- C4 (amended): merge consumes a fully drained source (the drained
source shell holds no entries); every path reachable in either input is
reachable in the merged tree; the merged tree is at least as large as the
tree merged into; and provided the drained source tree has no duplicate
sibling moves at any depth, the merged tree is at least as large as the
larger input. -/
theorem C4_merge_drains_preserves (t1 t2 : BoardContinuation) :
    ((drain t2).2.continuation = [] ∧ merge t1 t2 = mergeEntries t1 (drain t2).1) ∧
    (∀ p : List PossibleMove, hasPath p t1 = true ∨ hasPath p t2 = true →
      hasPath p (merge t1 t2) = true) ∧
    total_continuation_boards t1 ≤ total_continuation_boards (merge t1 t2) ∧
    (nodupDeep t2 = true →
      max (total_continuation_boards t1) (total_continuation_boards t2) ≤
        total_continuation_boards (merge t1 t2)) := by
  have hM1 : total_continuation_boards t1 ≤ total_continuation_boards (merge t1 t2) := by
    rw [merge_def]
    exact total_mergeEntries_ge (sizeOf t2.continuation) t2.continuation (le_refl _) t1
  refine ⟨⟨continuation_withEntries t2 [], by rw [merge_def]; rfl⟩, ?_, hM1, ?_⟩
  · intro p hp
    cases p with
    | nil => exact hasPath_nil _
    | cons m ms =>
      rcases hp with h | h
      · rw [merge_def]
        exact hasPath_mergeEntries_self (sizeOf t2.continuation) t2.continuation
          (le_refl _) t1 _ h
      · rw [merge_def]
        rw [hasPath_cons] at h
        exact hasPath_mergeEntries_src (sizeOf t2.continuation) t2.continuation
          (le_refl _) t1 m ms h
  · intro hnd
    apply max_le hM1
    have hcount2 : total_continuation_boards t2 = (pathsOf t2).length :=
      (paths_count (sizeOf t2)).1 t2 (le_refl _)
    have hcountM : total_continuation_boards (merge t1 t2) =
        (pathsOf (merge t1 t2)).length :=
      (paths_count (sizeOf (merge t1 t2))).1 _ (le_refl _)
    rw [nodupDeep_def, Bool.and_eq_true] at hnd
    obtain ⟨hk, he⟩ := hnd
    have hnodup : (pathsOf t2).Nodup := by
      rw [pathsOf_def]
      exact pathsEntries_nodup (sizeOf t2.continuation) t2.continuation (le_refl _)
        (of_decide_eq_true hk) he
    have hsubset : ∀ p ∈ pathsOf t2, p ∈ pathsOf (merge t1 t2) := by
      intro p hp
      cases p with
      | nil =>
        rw [pathsOf_def] at hp
        exact absurd hp (nil_not_mem_pathsEntries _)
      | cons m ms =>
        rw [pathsOf_def] at hp ⊢
        rw [cons_mem_pathsEntries] at hp ⊢
        rw [← hasPath_cons, merge_def]
        exact hasPath_mergeEntries_src (sizeOf t2.continuation) t2.continuation
          (le_refl _) t1 m ms hp
    have hfin : (pathsOf t2).length ≤ (pathsOf (merge t1 t2)).length := by
      have h1 : (pathsOf t2).toFinset.card = (pathsOf t2).length :=
        List.toFinset_card_of_nodup hnodup
      have h2 : (pathsOf t2).toFinset ⊆ (pathsOf (merge t1 t2)).toFinset := by
        intro p hp
        rw [List.mem_toFinset] at hp ⊢
        exact hsubset p hp
      calc (pathsOf t2).length = (pathsOf t2).toFinset.card := h1.symm
        _ ≤ (pathsOf (merge t1 t2)).toFinset.card := Finset.card_le_card h2
        _ ≤ (pathsOf (merge t1 t2)).length := List.toFinset_card_le _
    omega

theorem wLeaf_total : total_continuation_boards wLeaf = 0 := by
  rw [total_def]
  show ([] : List (PossibleMove × BoardContinuation)).length + totalEntries [] = 0
  rw [totalEntries_nil]
  simp

theorem wNode_total : total_continuation_boards wNode = 1 := by
  rw [total_def]
  show [(wMove, wLeaf)].length + totalEntries [(wMove, wLeaf)] = 1
  rw [totalEntries_cons, totalEntries_nil, wLeaf_total]
  simp

/-- Counterexample for C4 as stated: merging a source tree that contains
the same move twice into a tree already holding that move collapses both
entries into one, so the merged size (1) is below the larger input's size
(2). -/
theorem C4_merge_counterexample :
    ¬ (max (total_continuation_boards wNode) (total_continuation_boards cT2) ≤
        total_continuation_boards (merge wNode cT2)) := by
  have hT2 : total_continuation_boards cT2 = 2 := by
    rw [total_def]
    show [(wMove, wLeaf), (wMove, wLeaf)].length +
      totalEntries [(wMove, wLeaf), (wMove, wLeaf)] = 2
    rw [totalEntries_cons, totalEntries_cons, totalEntries_nil, wLeaf_total]
    simp
  have hff : findFirst wMove wNode.continuation = some wLeaf := by
    show findFirst wMove [(wMove, wLeaf)] = some wLeaf
    rw [findFirst]
    simp
  have hmergeLeaf : merge wLeaf wLeaf = wLeaf := by
    rw [merge_def]
    show mergeEntries wLeaf [] = wLeaf
    rw [mergeEntries_nil]
  have hset : setFirst wMove wLeaf [(wMove, wLeaf)] = [(wMove, wLeaf)] := by
    rw [setFirst]
    simp
  have hstep : mergeStep wNode wMove wLeaf = wNode := by
    rw [mergeStep_found wNode wMove wLeaf wLeaf hff, hmergeLeaf]
    show withEntries wNode (setFirst wMove wLeaf [(wMove, wLeaf)]) = wNode
    rw [hset]
    exact withEntries_self wNode
  have hmerge : merge wNode cT2 = wNode := by
    rw [merge_def]
    show mergeEntries wNode [(wMove, wLeaf), (wMove, wLeaf)] = wNode
    rw [mergeEntries_cons, hstep, mergeEntries_cons, hstep, mergeEntries_nil]
  rw [hmerge, hT2, wNode_total]
  omega

theorem wLeaf_nodup : nodupDeep wLeaf = true := by
  rw [nodupDeep_def]
  show (decide (List.Nodup ([] : List PossibleMove)) && nodupEntries []) = true
  rw [nodupEntries_nil]
  simp

theorem wNode_nodup : nodupDeep wNode = true := by
  rw [nodupDeep_def]
  show (decide (List.Nodup [wMove]) && nodupEntries [(wMove, wLeaf)]) = true
  rw [nodupEntries_cons, nodupEntries_nil, wLeaf_nodup]
  simp

/-- Witness for C4: merging a concrete one-entry source (no duplicate
moves) into a leaf preserves its path and the size bound holds. -/
theorem C4_merge_drains_preserves_witness :
    hasPath [wMove] (merge wLeaf wNode) = true ∧
    max (total_continuation_boards wLeaf) (total_continuation_boards wNode) ≤
      total_continuation_boards (merge wLeaf wNode) :=
  ⟨(C4_merge_drains_preserves wLeaf wNode).2.1 [wMove] (Or.inr (by decide)),
    (C4_merge_drains_preserves wLeaf wNode).2.2.2 wNode_nodup⟩

end BoardContinuation

end Dbce
